import Mathlib

/-! Shallow embedding of the MistServer socket core (`src/lib/socket.h`) and the
stream utilities (`src/lib/stream.cpp`). Bytes are modelled as `Nat` values
(kept below 256 where that matters) and byte strings as `List Nat`, so that
every definition is executable. `src/lib/socket.h` only declares the socket
interfaces; each operation body that the header omits is modelled from the
specification, as noted in its doc comment. -/

namespace Socket

/-- The byte accumulator of `src/lib/socket.h` lines 42-61: a deque of byte
chunks (`std::deque<std::string> data`), front chunk first. -/
structure Buffer where
  data : List (List Nat)
deriving DecidableEq

/-- A freshly constructed, empty `Buffer`. -/
def Buffer.empty : Buffer := ⟨[]⟩

/-- All buffered bytes in order, front chunk first. -/
def Buffer.flatten (b : Buffer) : List Nat := b.data.flatten

/-- Modelled from the spec (body absent from `src/lib/socket.h`): `size()`
returns total logical bytes across all chunks. -/
def Buffer.size (b : Buffer) : Nat := (b.data.map List.length).sum

/-- Modelled from the spec (body absent from `src/lib/socket.h`): `append`
adds a chunk at the tail. -/
def Buffer.append (b : Buffer) (newdata : List Nat) : Buffer := ⟨b.data ++ [newdata]⟩

/-- Modelled from the spec (body absent from `src/lib/socket.h`): `prepend`
adds a chunk at the head. -/
def Buffer.prepend (b : Buffer) (newdata : List Nat) : Buffer := ⟨newdata :: b.data⟩

/-- Modelled from the spec (body absent from `src/lib/socket.h`):
`available(n)` returns whether at least `n` bytes can currently be produced. -/
def Buffer.available (b : Buffer) (count : Nat) : Bool := count ≤ b.size

/-- Consume `count` bytes from the front of the chunk deque, coalescing across
chunk boundaries as needed; returns the consumed bytes together with the
remaining chunks. -/
def removeChunks : List (List Nat) → Nat → List Nat × List (List Nat)
  | cs, 0 => ([], cs)
  | [], _ + 1 => ([], [])
  | c :: cs, n + 1 =>
    if c.length ≤ n + 1 then
      let p := removeChunks cs (n + 1 - c.length)
      (c ++ p.1, p.2)
    else
      (c.take (n + 1), c.drop (n + 1) :: cs)

/-- Modelled from the spec (body absent from `src/lib/socket.h`): `remove(n)`
consumes and returns exactly `n` bytes from the front, coalescing across chunk
boundaries as needed, and is an error if insufficient data exists (modelled as
`none`). -/
def Buffer.remove (b : Buffer) (count : Nat) : Option (List Nat × Buffer) :=
  if b.size < count then none
  else some ((removeChunks b.data count).1, ⟨(removeChunks b.data count).2⟩)

/-- Modelled from the spec (body absent from `src/lib/socket.h`): `copy(n)`
is the non-destructive form of `remove` — the buffer is returned unchanged. -/
def Buffer.copy (b : Buffer) (count : Nat) : Option (List Nat × Buffer) :=
  if b.size < count then none
  else some ((removeChunks b.data count).1, b)

/-- Modelled from the spec (body absent from `src/lib/socket.h`): `clear()`
discards all chunks. -/
def Buffer.clear (_ : Buffer) : Buffer := ⟨[]⟩

/-- A sequence of `append` calls. -/
def Buffer.appendAll (b : Buffer) (xs : List (List Nat)) : Buffer :=
  xs.foldl Buffer.append b

/-- A sequence of `remove` calls, concatenating the returned bytes; fails if
any single `remove` fails. -/
def Buffer.removeAll : Buffer → List Nat → Option (List Nat × Buffer)
  | b, [] => some ([], b)
  | b, n :: ns =>
    match b.remove n with
    | none => none
    | some (out, b2) =>
      match Buffer.removeAll b2 ns with
      | none => none
      | some (rest, b3) => some (out ++ rest, b3)

/-- The connection state of `src/lib/socket.h` lines 65-124: the socket handle
`sock`, the two pipe-simulation handles `pipes[2]`, the cumulative byte
counters `up`/`down`, the `Error` and `Blocking` flags, and the inbound
accumulator `downbuffer`. Handles are `Int`: a nonnegative value is an open
descriptor, `-1` is invalid. -/
structure Connection where
  sock : Int
  pipeWrite : Int
  pipeRead : Int
  up : Nat
  down : Nat
  Error : Bool
  Blocking : Bool
  downbuffer : Buffer
deriving DecidableEq

/-- Modelled from the spec (body absent from `src/lib/socket.h`): `close()`
performs orderly shutdown and then invalidates every handle; it must tolerate
being invoked on an already-closed instance. -/
def Connection.close (c : Connection) : Connection :=
  { c with sock := -1, pipeWrite := -1, pipeRead := -1 }

/-- Modelled from the spec (body absent from `src/lib/socket.h`):
`connected()` reports liveness; false once every handle is invalidated. -/
def Connection.connected (c : Connection) : Bool :=
  decide (0 ≤ c.sock) || decide (0 ≤ c.pipeWrite) || decide (0 ≤ c.pipeRead)

/-- `Received()` exposes the inbound accumulator for consumption. -/
def Connection.Received (c : Connection) : Buffer := c.downbuffer

/-- One transport write attempt transfers up to `k` bytes; the schedule lists
the byte counts the transport accepts on successive attempts. Modelled from
the spec (body absent from `src/lib/socket.h`): `SendNow` loops on partial
writes until all bytes are sent or an unrecoverable error occurs (modelled as
`none`: the schedule is exhausted or the transport accepts nothing). -/
def sendLoop : List Nat → List Nat → List Nat → Option (List Nat)
  | _, pipe, [] => some pipe
  | [], _, _ :: _ => none
  | k :: ks, pipe, d :: ds =>
    if k = 0 then none
    else sendLoop ks (pipe ++ (d :: ds).take k) ((d :: ds).drop k)

/-- Modelled from the spec (body absent from `src/lib/socket.h`):
`SendNow(data)` performs a blocking, complete write of `data` onto the write
pipe regardless of the connection's configured blocking mode, adding the byte
count to the up counter on success. -/
def Connection.SendNow (c : Connection) (sched pipe data : List Nat) :
    Option (List Nat × Connection) :=
  match sendLoop sched pipe data with
  | none => none
  | some pipeOut => some (pipeOut, { c with up := c.up + data.length })

/-- Modelled from the spec (body absent from `src/lib/socket.h`): one
`spool()` appends the one fragment the transport delivered to the inbound
accumulator and counts the bytes. -/
def Connection.spool (c : Connection) (chunk : List Nat) : Connection :=
  { c with down := c.down + chunk.length, downbuffer := c.downbuffer.append chunk }

/-- Repeated `spool()` over the successive fragments the transport delivers. -/
def Connection.spoolAll (c : Connection) (frags : List (List Nat)) : Connection :=
  frags.foldl Connection.spool c

/-- The state-touching operations of the `Connection` public interface
(`src/lib/socket.h` lines 89-115). -/
inductive Op where
  | addUp (n : Nat)
  | addDown (n : Nat)
  | sendNow (data : List Nat)
  | spool (chunk : List Nat)
  | close
  | setBlocking (b : Bool)
  | resetCounter
deriving DecidableEq

/-- Whether the operation is the explicit `resetCounter()` call. -/
def Op.isReset : Op → Bool
  | .resetCounter => true
  | _ => false

/-- Modelled from the spec (bodies absent from `src/lib/socket.h`): the effect
of each interface operation on the connection state. `resetCounter()` resets
the up/down byte counters to zero; `SendNow`/`addUp` and `spool`/`addDown`
only ever add to them. -/
def Connection.step (c : Connection) : Op → Connection
  | .addUp n => { c with up := c.up + n }
  | .addDown n => { c with down := c.down + n }
  | .sendNow data => { c with up := c.up + data.length }
  | .spool chunk => c.spool chunk
  | .close => c.close
  | .setBlocking b => { c with Blocking := b }
  | .resetCounter => { c with up := 0, down := 0 }

/-- A sequence of interface operations applied in order. -/
def Connection.run (c : Connection) (ops : List Op) : Connection :=
  ops.foldl Connection.step c

/-- Modelled from the spec (body absent from `src/lib/socket.h`):
`matchIPv6Addr(A, B, plen)` compares two 16-byte binary IPv6 addresses
bit-exactly over the first `plen` bits: the `plen / 8` whole bytes must be
equal, and when `plen` is not a multiple of 8 the top `plen % 8` bits of the
next byte must also be equal. -/
def matchIPv6Addr (A B : List Nat) (plen : Nat) : Bool :=
  decide (A.take (plen / 8) = B.take (plen / 8)) &&
    (decide (plen % 8 = 0) ||
      decide ((A.getD (plen / 8) 0) >>> (8 - plen % 8) =
        (B.getD (plen / 8) 0) >>> (8 - plen % 8)))

/-- Bit `i` of a binary address in network order: bit 0 is the most
significant bit of the first byte. -/
def addrBit (A : List Nat) (i : Nat) : Bool :=
  Nat.testBit (A.getD (i / 8) 0) (7 - i % 8)

/-- The datagram connection state of `src/lib/socket.h` lines 167-194:
`data` holds the last received packet, `data_len` its length, `data_size` the
allocated capacity of the receive buffer, plus the byte counters. -/
structure UDPConnection where
  data : List Nat
  data_len : Nat
  data_size : Nat
  up : Nat
  down : Nat
deriving DecidableEq

/-- Modelled from the spec (body absent from `src/lib/socket.h`): `Receive()`
performs one datagram read — `none` models "no packet waiting" and leaves the
state untouched, `some pkt` grows the receive buffer capacity if the packet
exceeds it (never shrinking) and overwrites `data`/`data_len` with just this
packet; returns whether a packet was received. -/
def UDPConnection.Receive (u : UDPConnection) (incoming : Option (List Nat)) :
    Bool × UDPConnection :=
  match incoming with
  | none => (false, u)
  | some pkt =>
    (true, { u with
        data := pkt
        data_len := pkt.length
        data_size := max u.data_size pkt.length
        down := u.down + pkt.length })

/-- A sequence of `Receive()` calls. -/
def UDPConnection.receiveAll (u : UDPConnection) (ins : List (Option (List Nat))) :
    UDPConnection :=
  ins.foldl (fun v inc => (v.Receive inc).2) u

end Socket

namespace Util

/-- C locale `isalpha` on a byte: ASCII letters. -/
def isalpha (c : Nat) : Bool := (65 ≤ c && c ≤ 90) || (97 ≤ c && c ≤ 122)

/-- C locale `isdigit` on a byte: ASCII digits. -/
def isdigit (c : Nat) : Bool := 48 ≤ c && c ≤ 57

/-- C locale `tolower` on a byte: maps `A`-`Z` to `a`-`z`. -/
def tolower (c : Nat) : Nat := if 65 ≤ c && c ≤ 90 then c + 32 else c

/-- The character classes `Util::sanitizeName` keeps: letters, digits, `_`
(code 95) and `.` (code 46). -/
def keepChar (c : Nat) : Bool := isalpha c || isdigit c || c == 95 || c == 46

/-- Index of the last `?` (code 63) in the string, if any. -/
def lastQm : List Nat → Option Nat
  | [] => none
  | c :: rest =>
    match lastQm rest with
    | some k => some (k + 1)
    | none => if c == 63 then some 0 else none

/-- The backward character loop of `Util::sanitizeName`
(`src/lib/stream.cpp` lines 63-73). The C++ iterates from the last character
to the first: a `?` erases from that position to the end and breaks the loop,
leaving the characters before it untouched; every other character is erased
when it is not a letter, digit, `_` or `.`, and lowercased otherwise. Hence:
if `?` occurs, the result is the raw prefix before the last `?`; otherwise
each character is independently dropped or lowercased. -/
def sanitizeLoop (s : List Nat) : List Nat :=
  match lastQm s with
  | some k => s.take k
  | none => s.filterMap fun c => if keepChar c then some (tolower c) else none

/-- `Util::sanitizeName` (`src/lib/stream.cpp` lines 50-74). If the string
contains a `+` (code 43) or space (code 32), the part before the first one is
sanitized recursively, the part after it is truncated before its first `?`
but otherwise left as-is, and the two are rejoined with `+`; otherwise the
backward character loop runs. -/
def sanitizeName (s : List Nat) : List Nat :=
  match hf : s.findIdx? fun c => c == 43 || c == 32 with
  | some idx =>
    let preplus := sanitizeName (s.take idx)
    let postplus0 := s.drop (idx + 1)
    let postplus :=
      match postplus0.findIdx? fun c => c == 63 with
      | some q => postplus0.take q
      | none => postplus0
    preplus ++ [43] ++ postplus
  | none => sanitizeLoop s
termination_by s.length
decreasing_by
  simp only [List.length_take]
  have := List.findIdx?_eq_some_iff_findIdx_eq.mp hf
  omega

/-- `Util::startInput` (`src/lib/stream.cpp` lines 122-127): the stream name
is sanitized, then the length guard rejects sanitized names longer than 100
characters before anything else happens. Everything after the guard
(`streamAlive`, the shared-memory configuration lookup and the input process
start) lives outside this pure core and is abstracted as the continuation
`rest`, which receives the sanitized name and the other arguments. -/
def startInput (streamname filename : List Nat) (forkFirst isProvider : Bool)
    (rest : List Nat → List Nat → Bool → Bool → Bool) : Bool :=
  let s := sanitizeName streamname
  if 100 < s.length then false
  else rest s filename forkFirst isProvider

end Util

namespace Socket

theorem Buffer.size_eq_flatten_length (b : Buffer) : b.size = b.flatten.length := by
  simp [Buffer.size, Buffer.flatten, List.length_flatten]

theorem removeChunks_fst (cs : List (List Nat)) (n : Nat) :
    (removeChunks cs n).1 = cs.flatten.take n := by
  induction cs generalizing n with
  | nil => cases n <;> simp [removeChunks]
  | cons c cs ih =>
    cases n with
    | zero => simp [removeChunks]
    | succ m =>
      by_cases h : c.length ≤ m + 1
      · simp only [removeChunks, if_pos h, List.flatten_cons, ih]
        rw [List.take_append_eq_append_take, List.take_of_length_le h]
      · simp only [removeChunks, if_neg h, List.flatten_cons]
        rw [List.take_append_eq_append_take]
        have hz : m + 1 - c.length = 0 := by omega
        simp [hz]

theorem removeChunks_snd (cs : List (List Nat)) (n : Nat) :
    (removeChunks cs n).2.flatten = cs.flatten.drop n := by
  induction cs generalizing n with
  | nil => cases n <;> simp [removeChunks]
  | cons c cs ih =>
    cases n with
    | zero => simp [removeChunks]
    | succ m =>
      by_cases h : c.length ≤ m + 1
      · simp only [removeChunks, if_pos h, List.flatten_cons, ih]
        rw [List.drop_append_eq_append_drop, List.drop_of_length_le h]
        simp
      · simp only [removeChunks, if_neg h, List.flatten_cons]
        rw [List.drop_append_eq_append_drop]
        have hz : m + 1 - c.length = 0 := by omega
        simp [hz]

theorem Buffer.remove_of_le {b : Buffer} {n : Nat} (h : n ≤ b.size) :
    b.remove n = some (b.flatten.take n, ⟨(removeChunks b.data n).2⟩) := by
  simp [Buffer.remove, Nat.not_lt.mpr h, removeChunks_fst, Buffer.flatten]

theorem Buffer.remove_flatten {b : Buffer} {n : Nat} :
    (Buffer.mk (removeChunks b.data n).2).flatten = b.flatten.drop n := by
  simp [Buffer.flatten, removeChunks_snd]

theorem Buffer.removeAll_of_le {ns : List Nat} :
    ∀ {b : Buffer}, ns.sum ≤ b.size →
      ∃ b3, b.removeAll ns = some (b.flatten.take ns.sum, b3) ∧
        b3.flatten = b.flatten.drop ns.sum := by
  induction ns with
  | nil => intro b _; exact ⟨b, rfl, by simp⟩
  | cons n ns ih =>
    intro b h
    rw [List.sum_cons] at h
    have hn : n ≤ b.size := by omega
    have h2 : ns.sum ≤ (Buffer.mk (removeChunks b.data n).2).size := by
      rw [Buffer.size_eq_flatten_length, Buffer.remove_flatten, List.length_drop]
      rw [Buffer.size_eq_flatten_length] at h
      omega
    obtain ⟨b3, hrec, hflat⟩ := ih h2
    refine ⟨b3, ?_, ?_⟩
    · simp only [Buffer.removeAll, Buffer.remove_of_le hn, hrec]
      rw [Buffer.remove_flatten, List.sum_cons]
      rw [← List.take_add]
    · rw [hflat, Buffer.remove_flatten, List.drop_drop, List.sum_cons, Nat.add_comm]

theorem Buffer.flatten_append (b : Buffer) (x : List Nat) :
    (b.append x).flatten = b.flatten ++ x := by
  simp [Buffer.append, Buffer.flatten]

theorem Buffer.appendAll_flatten (xs : List (List Nat)) :
    ∀ b : Buffer, (b.appendAll xs).flatten = b.flatten ++ xs.flatten := by
  induction xs with
  | nil => intro b; simp [Buffer.appendAll]
  | cons x xs ih =>
    intro b
    simp only [Buffer.appendAll, List.foldl_cons, List.flatten_cons]
    rw [show List.foldl Buffer.append (b.append x) xs = (b.append x).appendAll xs from rfl]
    rw [ih, Buffer.flatten_append, List.append_assoc]

/-- C1: for every sequence of `append` calls followed by `remove` calls whose
requested sizes sum to the total number of appended bytes, the concatenation
of the bytes returned by the `remove` calls equals the concatenation of the
appended bytes, in the same order (FIFO law). -/
theorem buffer_fifo (xs : List (List Nat)) (ns : List Nat)
    (h : ns.sum = (Buffer.appendAll Buffer.empty xs).size) :
    ∃ b3, (Buffer.appendAll Buffer.empty xs).removeAll ns =
      some (xs.flatten, b3) := by
  obtain ⟨b3, hrem, _⟩ :=
    @Buffer.removeAll_of_le ns (Buffer.appendAll Buffer.empty xs) (le_of_eq h)
  refine ⟨b3, ?_⟩
  rw [hrem, Buffer.appendAll_flatten]
  have hflat : (Buffer.empty.flatten ++ xs.flatten) =
      (Buffer.appendAll Buffer.empty xs).flatten :=
    (Buffer.appendAll_flatten xs Buffer.empty).symm
  rw [hflat, h, Buffer.size_eq_flatten_length, List.take_length, ← hflat]
  simp [Buffer.empty, Buffer.flatten]

/-- C1 witness: appending `[1,2]` then `[3]` and removing 2 then 1 bytes
returns the appended bytes in order. -/
theorem buffer_fifo_witness :
    ∃ b3, (Buffer.appendAll Buffer.empty [[1, 2], [3]]).removeAll [2, 1] =
      some ([1, 2, 3], b3) :=
  buffer_fifo [[1, 2], [3]] [2, 1] (by decide)

/-- C2: `available(n)` is true if and only if `remove(n)` on that state
succeeds; `remove(n)` with `n` greater than `size()` is an error (`none`). -/
theorem buffer_available_iff_remove (b : Buffer) (n : Nat) :
    (b.available n = true ↔ (b.remove n).isSome = true) ∧
    (b.size < n → b.remove n = none) := by
  constructor
  · by_cases h : b.size < n
    · simp [Buffer.available, Buffer.remove, h, Nat.not_le.mpr h]
    · simp [Buffer.available, Buffer.remove, h, Nat.not_lt.mp h]
  · intro h
    simp [Buffer.remove, h]

/-- C2 witness: on a one-byte buffer, `available(2)` agrees with the failure
of `remove(2)`. -/
theorem buffer_available_iff_remove_witness :
    ((Buffer.mk [[7]]).available 2 = true ↔
      ((Buffer.mk [[7]]).remove 2).isSome = true) ∧
    (Buffer.mk [[7]]).remove 2 = none :=
  ⟨(buffer_available_iff_remove ⟨[[7]]⟩ 2).1,
    (buffer_available_iff_remove ⟨[[7]]⟩ 2).2 (by decide)⟩

/-- C4: when `available(n)` holds, `copy(n)` followed immediately by
`remove(n)` yields two identical byte strings; `size()` is unchanged by
`copy(n)` and decreases by exactly `n` after `remove(n)`. -/
theorem buffer_copy_remove (b : Buffer) (n : Nat) (h : b.available n = true) :
    ∃ out b2 b3,
      b.copy n = some (out, b2) ∧
      b2.remove n = some (out, b3) ∧
      b2.size = b.size ∧
      b3.size = b.size - n := by
  have hle : n ≤ b.size := by simpa [Buffer.available] using h
  have hnl : ¬ b.size < n := Nat.not_lt.mpr hle
  refine ⟨(removeChunks b.data n).1, b, ⟨(removeChunks b.data n).2⟩, ?_, ?_, rfl, ?_⟩
  · simp [Buffer.copy, hnl]
  · simp [Buffer.remove, hnl]
  · rw [Buffer.size_eq_flatten_length, Buffer.size_eq_flatten_length,
      Buffer.remove_flatten, List.length_drop]

/-- C4 witness: on the buffer `[[1],[2,3]]` with `n = 2`. -/
theorem buffer_copy_remove_witness :
    ∃ out b2 b3,
      (Buffer.mk [[1], [2, 3]]).copy 2 = some (out, b2) ∧
      b2.remove 2 = some (out, b3) ∧
      b2.size = (Buffer.mk [[1], [2, 3]]).size ∧
      b3.size = (Buffer.mk [[1], [2, 3]]).size - 2 :=
  buffer_copy_remove ⟨[[1], [2, 3]]⟩ 2 (by decide)

/-- C5: `close()` is idempotent and safe on an already-closed instance, and
`connected()` is false after each of two successive `close()` calls. -/
theorem connection_close_idempotent (c : Connection) :
    Connection.close (Connection.close c) = Connection.close c ∧
    (Connection.close c).connected = false ∧
    (Connection.close (Connection.close c)).connected = false := by
  refine ⟨rfl, ?_, ?_⟩ <;> simp [Connection.close, Connection.connected]

theorem Connection.step_up_le (c : Connection) (op : Op)
    (h : op.isReset = false) : c.up ≤ (c.step op).up := by
  cases op <;> simp_all [Connection.step, Connection.spool, Connection.close, Op.isReset]

theorem Connection.step_down_le (c : Connection) (op : Op)
    (h : op.isReset = false) : c.down ≤ (c.step op).down := by
  cases op <;> simp_all [Connection.step, Connection.spool, Connection.close, Op.isReset]

theorem Connection.run_up_le (ops : List Op) :
    ∀ c : Connection, (∀ op ∈ ops, op.isReset = false) → c.up ≤ (c.run ops).up := by
  induction ops with
  | nil => intro c _; exact le_refl _
  | cons op ops ih =>
    intro c h
    have h1 : op.isReset = false := h op (List.mem_cons_self op ops)
    have h2 : ∀ o ∈ ops, o.isReset = false := fun o ho => h o (List.mem_cons_of_mem op ho)
    exact le_trans (Connection.step_up_le c op h1) (ih (c.step op) h2)

theorem Connection.run_down_le (ops : List Op) :
    ∀ c : Connection, (∀ op ∈ ops, op.isReset = false) → c.down ≤ (c.run ops).down := by
  induction ops with
  | nil => intro c _; exact le_refl _
  | cons op ops ih =>
    intro c h
    have h1 : op.isReset = false := h op (List.mem_cons_self op ops)
    have h2 : ∀ o ∈ ops, o.isReset = false := fun o ho => h o (List.mem_cons_of_mem op ho)
    exact le_trans (Connection.step_down_le c op h1) (ih (c.step op) h2)

/-- C6: over every sequence of interface operations that does not include
`resetCounter`, the `up`/`down` byte counters are monotonically
non-decreasing; the explicit `resetCounter()` call lowers them to zero. -/
theorem connection_counters_monotone (c : Connection) (ops : List Op)
    (h : ∀ op ∈ ops, op.isReset = false) :
    c.up ≤ (c.run ops).up ∧ c.down ≤ (c.run ops).down ∧
    (c.step Op.resetCounter).up = 0 ∧ (c.step Op.resetCounter).down = 0 :=
  ⟨Connection.run_up_le ops c h, Connection.run_down_le ops c h, rfl, rfl⟩

/-- C6 witness: a concrete reset-free operation sequence. -/
theorem connection_counters_monotone_witness :
    (Connection.mk 3 (-1) (-1) 5 5 false true ⟨[]⟩).up ≤
      ((Connection.mk 3 (-1) (-1) 5 5 false true ⟨[]⟩).run
        [Op.addUp 3, Op.spool [1, 2], Op.close]).up ∧
    (Connection.mk 3 (-1) (-1) 5 5 false true ⟨[]⟩).down ≤
      ((Connection.mk 3 (-1) (-1) 5 5 false true ⟨[]⟩).run
        [Op.addUp 3, Op.spool [1, 2], Op.close]).down ∧
    ((Connection.mk 3 (-1) (-1) 5 5 false true ⟨[]⟩).step Op.resetCounter).up = 0 ∧
    ((Connection.mk 3 (-1) (-1) 5 5 false true ⟨[]⟩).step Op.resetCounter).down = 0 :=
  connection_counters_monotone (Connection.mk 3 (-1) (-1) 5 5 false true ⟨[]⟩)
    [Op.addUp 3, Op.spool [1, 2], Op.close] (by decide)

theorem UDPConnection.receive_size_le (u : UDPConnection) (inc : Option (List Nat)) :
    u.data_size ≤ (u.Receive inc).2.data_size := by
  cases inc <;> simp [UDPConnection.Receive]

theorem UDPConnection.receiveAll_size_le (ins : List (Option (List Nat))) :
    ∀ u : UDPConnection, u.data_size ≤ (u.receiveAll ins).data_size := by
  induction ins with
  | nil => intro u; exact le_refl _
  | cons inc ins ih =>
    intro u
    exact le_trans (UDPConnection.receive_size_le u inc)
      (ih ((u.Receive inc).2))

/-- C8: over every sequence of `Receive()` calls the receive-buffer capacity
`data_size` never decreases, a single `Receive` grows it exactly when the
incoming packet exceeds the current capacity, and after a successful
`Receive()` the fields `data`/`data_len` describe only the most recently
received packet. -/
theorem udp_receive_invariants (u : UDPConnection)
    (ins : List (Option (List Nat))) (p : List Nat) :
    u.data_size ≤ (u.receiveAll ins).data_size ∧
    (u.Receive (some p)).2.data_size = max u.data_size p.length ∧
    (u.data_size < (u.Receive (some p)).2.data_size ↔ u.data_size < p.length) ∧
    (u.Receive (some p)).1 = true ∧
    (u.Receive (some p)).2.data = p ∧
    (u.Receive (some p)).2.data_len = p.length ∧
    (u.Receive none).2 = u := by
  refine ⟨UDPConnection.receiveAll_size_le ins u, rfl, ?_, rfl, rfl, rfl, rfl⟩
  simp [UDPConnection.Receive, lt_max_iff]

theorem sendLoop_eq (sched : List Nat) :
    ∀ pipe data pipeOut : List Nat,
      sendLoop sched pipe data = some pipeOut → pipeOut = pipe ++ data := by
  induction sched with
  | nil =>
    intro pipe data pipeOut h
    cases data with
    | nil => simp [sendLoop] at h; simp [h.symm]
    | cons d ds => simp [sendLoop] at h
  | cons k ks ih =>
    intro pipe data pipeOut h
    cases data with
    | nil => simp [sendLoop] at h; simp [h.symm]
    | cons d ds =>
      by_cases hk : k = 0
      · simp [sendLoop, hk] at h
      · simp only [sendLoop, if_neg hk] at h
        have := ih _ _ _ h
        rw [this, List.append_assoc, List.take_append_drop]

theorem Connection.spoolAll_flatten (frags : List (List Nat)) :
    ∀ c : Connection,
      (c.spoolAll frags).downbuffer.flatten = c.downbuffer.flatten ++ frags.flatten := by
  induction frags with
  | nil => intro c; simp [Connection.spoolAll]
  | cons f fs ih =>
    intro c
    simp only [Connection.spoolAll, List.foldl_cons, List.flatten_cons]
    rw [show List.foldl Connection.spool (c.spool f) fs = (c.spool f).spoolAll fs from rfl]
    rw [ih, show (c.spool f).downbuffer = c.downbuffer.append f from rfl]
    rw [Buffer.flatten_append, List.append_assoc]

/-- C3: any byte string sent with `SendNow` over a simulated pipe pair is
written completely (for every successful partial-write schedule the pipe ends
holding exactly the sent bytes, independently of the `Blocking` flag), and for
every way the transport fragments the delivery, repeated `spool()` followed by
`Received().remove()` on the other end recovers the sent bytes exactly. -/
theorem sendNow_pipe_roundtrip (c1 c2 : Connection) (sched data pipeOut : List Nat)
    (c1out : Connection) (frags : List (List Nat))
    (hsend : c1.SendNow sched [] data = some (pipeOut, c1out))
    (hfrag : frags.flatten = pipeOut)
    (hbuf : c2.downbuffer = Buffer.empty) :
    (∃ b2, (c2.spoolAll frags).Received.remove data.length = some (data, b2)) ∧
    ∀ bl : Bool, ({ c1 with Blocking := bl } : Connection).SendNow sched [] data =
      some (pipeOut, { c1out with Blocking := bl }) := by
  rcases hl : sendLoop sched [] data with _ | po
  · rw [Connection.SendNow, hl] at hsend; exact absurd hsend (by simp)
  · rw [Connection.SendNow, hl] at hsend
    simp only [Option.some.injEq, Prod.mk.injEq] at hsend
    obtain ⟨hpo, hc1⟩ := hsend
    have hdata : pipeOut = data := by
      rw [← hpo]; simpa using sendLoop_eq sched [] data po hl
    constructor
    · have hflat : (c2.spoolAll frags).Received.flatten = data := by
        rw [Connection.Received, Connection.spoolAll_flatten, hbuf, hfrag, hdata]
        simp [Buffer.empty, Buffer.flatten]
      have hsize : data.length ≤ (c2.spoolAll frags).Received.size := by
        rw [Buffer.size_eq_flatten_length, hflat]
      refine ⟨⟨(removeChunks (c2.spoolAll frags).Received.data data.length).2⟩, ?_⟩
      rw [Buffer.remove_of_le hsize, hflat, List.take_length]
    · intro bl
      rw [Connection.SendNow, hl, ← hc1, hpo]

/-- C3 witness: three bytes sent in two partial writes and delivered in two
fragments are recovered exactly. -/
theorem sendNow_pipe_roundtrip_witness :
    (∃ b2, ((Connection.mk 4 (-1) (-1) 0 0 false false ⟨[]⟩).spoolAll
        [[5], [6, 7]]).Received.remove 3 = some ([5, 6, 7], b2)) ∧
    ∀ bl : Bool,
      ({ Connection.mk 3 (-1) (-1) 0 0 false true ⟨[]⟩ with Blocking := bl } :
          Connection).SendNow [2, 2] [] [5, 6, 7] =
        some ([5, 6, 7], { Connection.mk 3 (-1) (-1) 3 0 false true ⟨[]⟩ with Blocking := bl }) :=
  sendNow_pipe_roundtrip (Connection.mk 3 (-1) (-1) 0 0 false true ⟨[]⟩)
    (Connection.mk 4 (-1) (-1) 0 0 false false ⟨[]⟩) [2, 2] [5, 6, 7] [5, 6, 7]
    (Connection.mk 3 (-1) (-1) 3 0 false true ⟨[]⟩) [[5], [6, 7]]
    (by decide) (by decide) (by decide)

theorem byteShift_eq_iff {a b : Nat} (ha : a < 256) (hb : b < 256) {r : Nat}
    (hr : r ≤ 8) :
    a >>> (8 - r) = b >>> (8 - r) ↔
      ∀ j, j < r → a.testBit (7 - j) = b.testBit (7 - j) := by
  constructor
  · intro h j hj
    have h7 : 7 - j = (8 - r) + (r - 1 - j) := by omega
    rw [h7, ← Nat.testBit_shiftRight, ← Nat.testBit_shiftRight, h]
  · intro h
    apply Nat.eq_of_testBit_eq
    intro m
    rw [Nat.testBit_shiftRight, Nat.testBit_shiftRight]
    by_cases hm : 8 ≤ (8 - r) + m
    · have h2 : (256 : Nat) ≤ 2 ^ ((8 - r) + m) := by
        calc (256 : Nat) = 2 ^ 8 := by norm_num
        _ ≤ 2 ^ ((8 - r) + m) := Nat.pow_le_pow_right (by norm_num) hm
      rw [Nat.testBit_lt_two_pow (lt_of_lt_of_le ha h2),
        Nat.testBit_lt_two_pow (lt_of_lt_of_le hb h2)]
    · have hj : r - 1 - m < r := by omega
      have h7 : (8 - r) + m = 7 - (r - 1 - m) := by omega
      rw [h7]
      exact h _ hj

theorem take_eq_iff_getD {A B : List Nat} {k : Nat} (hA : k ≤ A.length)
    (hB : k ≤ B.length) :
    A.take k = B.take k ↔ ∀ m, m < k → A.getD m 0 = B.getD m 0 := by
  constructor
  · intro h m hm
    rw [List.getD_eq_getElem?_getD, List.getD_eq_getElem?_getD,
      ← @List.getElem?_take_of_lt Nat A k m hm, ← @List.getElem?_take_of_lt Nat B k m hm, h]
  · intro h
    apply List.ext_getElem?
    intro m
    by_cases hm : m < k
    · rw [List.getElem?_take_of_lt hm, List.getElem?_take_of_lt hm]
      have hmA : m < A.length := lt_of_lt_of_le hm hA
      have hmB : m < B.length := lt_of_lt_of_le hm hB
      rw [List.getElem?_eq_getElem hmA, List.getElem?_eq_getElem hmB]
      have := h m hm
      rw [List.getD_eq_getElem?_getD, List.getD_eq_getElem?_getD,
        List.getElem?_eq_getElem hmA, List.getElem?_eq_getElem hmB] at this
      simpa using this
    · rw [List.getElem?_eq_none, List.getElem?_eq_none]
      · simp [Nat.not_lt.mp hm]
      · simp [Nat.not_lt.mp hm]

theorem getD_lt_256 {A : List Nat} (hAb : ∀ x ∈ A, x < 256) {m : Nat}
    (hm : m < A.length) : A.getD m 0 < 256 := by
  rw [List.getD_eq_getElem?_getD, List.getElem?_eq_getElem hm]
  exact hAb _ (List.getElem_mem hm)

/-- C7: `matchIPv6Addr` is bit-exact over the specified prefix length: for
16-byte binary addresses it returns true exactly when the first `p` bits
agree. In particular two addresses differing only beyond bit 64 match at
prefix length 64, and two addresses differing within the first 64 bits do
not. -/
theorem matchIPv6Addr_bitExact (A B : List Nat) (p : Nat)
    (hA : A.length = 16) (hB : B.length = 16)
    (hAb : ∀ x ∈ A, x < 256) (hBb : ∀ x ∈ B, x < 256) (hp : p ≤ 128) :
    matchIPv6Addr A B p = true ↔ ∀ i, i < p → addrBit A i = addrBit B i := by
  have hkA : p / 8 ≤ A.length := by rw [hA]; omega
  have hkB : p / 8 ≤ B.length := by rw [hB]; omega
  rw [matchIPv6Addr]
  simp only [Bool.and_eq_true, Bool.or_eq_true, decide_eq_true_eq]
  constructor
  · rintro ⟨htake, hpart⟩ i hi
    have hcase : i / 8 < p / 8 ∨ (i / 8 = p / 8 ∧ i % 8 < p % 8) := by omega
    rcases hcase with hfull | ⟨heq, hrem⟩
    · have hbyte : A.getD (i / 8) 0 = B.getD (i / 8) 0 :=
        (take_eq_iff_getD hkA hkB).mp htake (i / 8) hfull
      rw [addrBit, addrBit, hbyte]
    · have hr0 : p % 8 ≠ 0 := by omega
      rcases hpart with h0 | hs
      · exact absurd h0 hr0
      · have haP : A.getD (p / 8) 0 < 256 := getD_lt_256 hAb (by rw [hA]; omega)
        have hbP : B.getD (p / 8) 0 < 256 := getD_lt_256 hBb (by rw [hB]; omega)
        have := (byteShift_eq_iff haP hbP (show p % 8 ≤ 8 by omega)).mp hs
          (i % 8) hrem
        rw [addrBit, addrBit, heq]
        exact this
  · intro hbits
    constructor
    · apply (take_eq_iff_getD hkA hkB).mpr
      intro m hm
      have hmA : m < A.length := lt_of_lt_of_le hm hkA
      have hmB : m < B.length := lt_of_lt_of_le hm hkB
      have hbits8 : ∀ j, j < 8 →
          (A.getD m 0).testBit (7 - j) = (B.getD m 0).testBit (7 - j) := by
        intro j hj
        have hi : 8 * m + j < p := by omega
        have hb := hbits (8 * m + j) hi
        rw [addrBit, addrBit] at hb
        have hdiv : (8 * m + j) / 8 = m := by omega
        have hmod : (8 * m + j) % 8 = j := by omega
        rw [hdiv, hmod] at hb
        exact hb
      have hbyte := (byteShift_eq_iff (getD_lt_256 hAb hmA) (getD_lt_256 hBb hmB)
        (le_refl 8)).mpr hbits8
      simpa using hbyte
    · by_cases h0 : p % 8 = 0
      · exact Or.inl h0
      · refine Or.inr ?_
        have haP : A.getD (p / 8) 0 < 256 := getD_lt_256 hAb (by rw [hA]; omega)
        have hbP : B.getD (p / 8) 0 < 256 := getD_lt_256 hBb (by rw [hB]; omega)
        apply (byteShift_eq_iff haP hbP (show p % 8 ≤ 8 by omega)).mpr
        intro j hj
        have hi : 8 * (p / 8) + j < p := by omega
        have hb := hbits (8 * (p / 8) + j) hi
        rw [addrBit, addrBit] at hb
        have hdiv : (8 * (p / 8) + j) / 8 = p / 8 := by omega
        have hmod : (8 * (p / 8) + j) % 8 = j := by omega
        rw [hdiv, hmod] at hb
        exact hb

/-- C7 witness: two concrete 16-byte addresses equal in their first 8 bytes
and different in byte 15 match at prefix length 64. -/
theorem matchIPv6Addr_bitExact_witness :
    matchIPv6Addr [32, 1, 13, 184, 0, 1, 0, 2, 0, 0, 0, 0, 0, 0, 0, 1]
      [32, 1, 13, 184, 0, 1, 0, 2, 255, 254, 17, 9, 3, 4, 5, 99] 64 = true :=
  (matchIPv6Addr_bitExact
    [32, 1, 13, 184, 0, 1, 0, 2, 0, 0, 0, 0, 0, 0, 0, 1]
    [32, 1, 13, 184, 0, 1, 0, 2, 255, 254, 17, 9, 3, 4, 5, 99] 64
    (by decide) (by decide) (by decide) (by decide) (by decide)).mpr (by decide)

end Socket

namespace Util

/-- C9: `Util::sanitizeName` is not idempotent. On the two-byte name `"A?"`
(codes `[65, 63]`) the backward loop of `src/lib/stream.cpp` lines 63-73 meets
the `?` first, erases from it to the end and breaks, leaving the preceding
`'A'` neither validated nor lowercased: the first application returns `"A"`
(`[65]`), and a second application lowercases it to `"a"` (`[97]`) — although
the function's own documentation promises that all letters are converted to
lowercase. -/
theorem sanitizeName_not_idempotent :
    sanitizeName [65, 63] = [65] ∧
    sanitizeName (sanitizeName [65, 63]) = [97] ∧
    sanitizeName (sanitizeName [65, 63]) ≠ sanitizeName [65, 63] := by
  have h1 : sanitizeName [65, 63] = [65] := by rw [sanitizeName]; decide
  have h2 : sanitizeName [65] = [97] := by rw [sanitizeName]; decide
  refine ⟨h1, ?_, ?_⟩
  · rw [h1, h2]
  · rw [h1, h2]; decide

/-- C10: whenever the sanitized stream name is longer than 100 characters,
`Util::startInput` returns false, for every continuation — the length guard
fires directly after `sanitizeName`, before the configuration is consulted or
any input process is started. -/
theorem startInput_length_guard (streamname filename : List Nat)
    (forkFirst isProvider : Bool)
    (h : 100 < (sanitizeName streamname).length) :
    ∀ rest : List Nat → List Nat → Bool → Bool → Bool,
      startInput streamname filename forkFirst isProvider rest = false := by
  intro rest
  rw [startInput]
  simp only [h, if_pos]

/-- C10 witness: a name of 101 `'a'` characters survives sanitization intact
and is rejected whatever the continuation would have answered. -/
theorem startInput_length_guard_witness :
    startInput (List.replicate 101 97) [] false false (fun _ _ _ _ => true) = false :=
  startInput_length_guard (List.replicate 101 97) [] false false
    (by rw [sanitizeName]; decide) (fun _ _ _ _ => true)

end Util
